import Mathlib

/-!
Shallow embedding of `abipy/core/symmetries.py` (crystal symmetry algebra):
integer 3x3 matrix inversion (`mati3inv`, `_get_det`), symmetry operations
(`SymmOp`), operation containers (`OpSequence`: `is_group`, `asdict`,
`mult_table`, `class_indices`), `SpaceGroup.find_little_group`, `Irrep`,
and the Schoenflies / Hermann-Mauguin translation tables.

Python floats are modelled by `ℚ`, numpy integer matrices by
`Matrix (Fin 3) (Fin 3) ℤ` realised as plain functions, and fallible code
(raised exceptions) by `Except String`.
-/

namespace Abipy

instance {ε α : Type} [DecidableEq ε] [DecidableEq α] : DecidableEq (Except ε α) :=
  fun a b =>
    match a, b with
    | .error x, .error y =>
        if h : x = y then .isTrue (congrArg Except.error h)
        else .isFalse (fun hh => h (Except.error.inj hh))
    | .ok x, .ok y =>
        if h : x = y then .isTrue (congrArg Except.ok h)
        else .isFalse (fun hh => h (Except.ok.inj hh))
    | .error _, .ok _ => .isFalse Except.noConfusion
    | .ok _, .error _ => .isFalse Except.noConfusion

/-- 3x3 integer matrix (numpy `int` array in the source). -/
abbrev Mat3 : Type := Fin 3 → Fin 3 → ℤ

/-- 3-vector of rationals (numpy float array in the source). -/
abbrev Vec3 : Type := Fin 3 → ℚ

/-- The zero 3-vector. -/
def v0 : Vec3 := fun _ => 0

/-- The 3x3 identity matrix (`np.eye(3, dtype=np.int)`). -/
def id3 : Mat3 := fun i j => if i = j then 1 else 0

/-- Matrix product of two 3x3 integer matrices (`np.dot`). -/
def mat3mul (a b : Mat3) : Mat3 := fun i j =>
  a i 0 * b 0 j + a i 1 * b 1 j + a i 2 * b 2 j

/-- Integer matrix applied to a rational vector (`np.dot(mat, vec)`). -/
def mat3vec (m : Mat3) (v : Vec3) : Vec3 := fun i =>
  (m i 0 : ℚ) * v 0 + (m i 1 : ℚ) * v 1 + (m i 2 : ℚ) * v 2

/-- Transpose of a 3x3 matrix (`mat.T`). -/
def mat3T (m : Mat3) : Mat3 := fun i j => m j i

/-- Trace of the rotation matrix (`mat.trace()`). -/
def traceI (m : Mat3) : ℤ := m 0 0 + m 1 1 + m 2 2

/-- Scalar multiple of a vector (`vec * sign`). -/
def vscale (c : ℤ) (v : Vec3) : Vec3 := fun i => (c : ℚ) * v i

/-- Determinant formula used by `_get_det` (first-row Laplace expansion). -/
def detRaw (m : Mat3) : ℤ :=
  m 0 0 * (m 1 1 * m 2 2 - m 1 2 * m 2 1)
    - m 0 1 * (m 1 0 * m 2 2 - m 1 2 * m 2 0)
    + m 0 2 * (m 1 0 * m 2 1 - m 1 1 * m 2 0)

/-- The cofactor matrix `mit` filled entry-by-entry inside `mati3inv`. -/
def cofM (m : Mat3) : Mat3 := fun i j =>
  match i, j with
  | 0, 0 => m 1 1 * m 2 2 - m 2 1 * m 1 2
  | 1, 0 => m 2 1 * m 0 2 - m 0 1 * m 2 2
  | 2, 0 => m 0 1 * m 1 2 - m 1 1 * m 0 2
  | 0, 1 => m 2 0 * m 1 2 - m 1 0 * m 2 2
  | 1, 1 => m 0 0 * m 2 2 - m 2 0 * m 0 2
  | 2, 1 => m 1 0 * m 0 2 - m 0 0 * m 1 2
  | 0, 2 => m 1 0 * m 2 1 - m 2 0 * m 1 1
  | 1, 2 => m 2 0 * m 0 1 - m 0 0 * m 2 1
  | 2, 2 => m 0 0 * m 1 1 - m 1 0 * m 0 1

/-- The column expansion `dd = mat3[0,0]*mit[0,0] + mat3[1,0]*mit[1,0] + mat3[2,0]*mit[2,0]`. -/
def ddOf (m : Mat3) : ℤ := m 0 0 * cofM m 0 0 + m 1 0 * cofM m 1 0 + m 2 0 * cofM m 2 0

/-- Entry-wise Python floor division of `cofM` by `dd` (`mit = mit // dd`). -/
def cofDiv (m : Mat3) : Mat3 := fun i j => Int.fdiv (cofM m i j) (ddOf m)

/-- Result of `mati3inv(mat3, trans)` when it does not raise: `mit // dd`
    for `trans=True`, its transpose for `trans=False`. -/
def mati3invRaw (m : Mat3) (trans : Bool) : Mat3 :=
  if trans then cofDiv m else mat3T (cofDiv m)

/-- `mati3inv`: invert-and-transpose a 3x3 integer matrix; raises `ValueError`
    when the determinant (computed as the column expansion `dd`) is zero. -/
def mati3inv (m : Mat3) (trans : Bool) : Except String Mat3 :=
  if ddOf m = 0 then
    .error "ValueError: Attempting to invert integer array: determinant is zero."
  else
    .ok (mati3invRaw m trans)

/-- The `_get_det` helper: returns the determinant, raising `ValueError`
    unless it is +1 or -1. -/
def getDetE (m : Mat3) : Except String ℤ :=
  if (detRaw m).natAbs ≠ 1 then
    .error ("ValueError: determinant must be \\pm 1 while it is " ++ toString (detRaw m))
  else
    .ok (detRaw m)

/-- The fixed tolerance `SymmOp._ATOL_TAU = 1e-8`. -/
def ATOL_TAU : ℚ := 1 / 100000000

/-- The default `rtol` of `np.allclose`, `1e-5`. -/
def NP_RTOL : ℚ := 1 / 100000

/-- `np.around` on a rational scalar: round half to even. -/
def rndEven (q : ℚ) : ℤ :=
  let f := ⌊q⌋
  if q - f < 1/2 then f
  else if q - f > 1/2 then f + 1
  else if 2 ∣ f then f else f + 1

/-- One component of `np.allclose(np.around(x), x, atol=atol)`:
    `|around(x) - x| <= atol + rtol * |x|` with numpy's default `rtol`. -/
def closeI (x : ℚ) (atol : ℚ) : Bool :=
  decide (|(rndEven x : ℚ) - x| ≤ atol + NP_RTOL * |x|)

/-- `is_integer(x, atol)` on a 3-vector: every component is within tolerance
    of its rounded value. -/
def is_integerB (x : Vec3) (atol : ℚ) : Bool :=
  closeI (x 0) atol && closeI (x 1) atol && closeI (x 2) atol

/-- A crystalline symmetry operation (`SymmOp`): real-space rotation, its
    stored inverse, fractional translation, time-reversal and magnetic signs,
    and the derived reciprocal-space rotation. -/
structure SymmOp where
  rot_r : Mat3
  rotm1_r : Mat3
  tau : Vec3
  time_sign : ℤ
  afm_sign : ℤ
  rot_g : Mat3

instance : DecidableEq SymmOp := fun a b =>
  decidable_of_iff
    (a.rot_r = b.rot_r ∧ a.rotm1_r = b.rotm1_r ∧ a.tau = b.tau ∧
      a.time_sign = b.time_sign ∧ a.afm_sign = b.afm_sign ∧ a.rot_g = b.rot_g)
    (by cases a; cases b; simp)

instance : Inhabited SymmOp :=
  ⟨{ rot_r := id3, rotm1_r := id3, tau := v0, time_sign := 1, afm_sign := 1, rot_g := id3 }⟩

/-- `SymmOp.__init__`: stores `rot_r` together with `mati3inv(rot_r, trans=False)`,
    asserts the two signs are in `{-1, +1}`, and either computes `rot_g` as
    `mati3inv(rot_r, trans=True)` or checks that a supplied `rot_g` equals it. -/
def mkSymmOp (rot_r : Mat3) (tau : Vec3) (time_sign afm_sign : ℤ)
    (rot_g? : Option Mat3) : Except String SymmOp := do
  let rotm1 ← mati3inv rot_r false
  if (afm_sign = -1 ∨ afm_sign = 1) ∧ (time_sign = -1 ∨ time_sign = 1) then
    match rot_g? with
    | none => do
        let g ← mati3inv rot_r true
        pure { rot_r := rot_r, rotm1_r := rotm1, tau := tau,
               time_sign := time_sign, afm_sign := afm_sign, rot_g := g }
    | some g => do
        let g' ← mati3inv rot_r true
        if g = g' then
          pure { rot_r := rot_r, rotm1_r := rotm1, tau := tau,
                 time_sign := time_sign, afm_sign := afm_sign, rot_g := g }
        else
          .error "AssertionError: rot_g"
  else
    .error "AssertionError: afm_sign in [-1, 1] and time_sign in [-1, 1]"

namespace SymmOp

/-- `SymmOp.__eq__`: identical rotations, translations equal modulo an integer
    lattice vector (within tolerance), identical magnetic and time signs. -/
def eqOp (a b : SymmOp) : Bool :=
  decide (a.rot_r = b.rot_r) && is_integerB (a.tau - b.tau) ATOL_TAU
    && (a.afm_sign == b.afm_sign) && (a.time_sign == b.time_sign)

/-- `SymmOp.__mul__`: `{R,t} {S,u} = {RS, Ru + t}`, signs multiply; builds a
    fresh `SymmOp`, hence revalidates through the constructor. -/
def mulE (a b : SymmOp) : Except String SymmOp :=
  mkSymmOp (mat3mul a.rot_r b.rot_r) (a.tau + mat3vec a.rot_r b.tau)
    (a.time_sign * b.time_sign) (a.afm_sign * b.afm_sign) none

/-- `SymmOp.inverse`: `{R^-1, -R^-1 tau}` using the stored `rotm1_r`. -/
def inverseE (a : SymmOp) : Except String SymmOp :=
  mkSymmOp a.rotm1_r (-(mat3vec a.rotm1_r a.tau)) a.time_sign a.afm_sign none

/-- `Operation.opconj`: `other.inverse() * self * other` (left associated). -/
def opconjE (self other : SymmOp) : Except String SymmOp := do
  let oi ← inverseE other
  let p ← mulE oi self
  mulE p other

/-- `SymmOp.isE`: identity rotation, integer translation, both signs `+1`. -/
def isE (a : SymmOp) : Bool :=
  decide (a.rot_r = id3) && is_integerB a.tau ATOL_TAU
    && (a.time_sign == 1) && (a.afm_sign == 1)

/-- `SymmOp.__hash__`: `int(8*trace + 4*det + 2*time_sign)`; accessing `det`
    raises unless the determinant is +1 or -1. -/
def hashE (a : SymmOp) : Except String ℤ := do
  let d ← getDetE a.rot_r
  pure (8 * traceI a.rot_r + 4 * d + 2 * a.time_sign)

/-- `SymmOp.rotate_k` without zone wrapping: `np.dot(rot_g, k) * time_sign`. -/
def rotate_k (a : SymmOp) (k : Vec3) : Vec3 :=
  vscale a.time_sign (mat3vec a.rot_g k)

/-- Class invariant of every `SymmOp` the Python constructor can produce:
    the cached fields really are the constructor-computed ones and both signs
    are in `{-1, +1}`. -/
def WF (a : SymmOp) : Prop :=
  mati3inv a.rot_r false = .ok a.rotm1_r ∧
  mati3inv a.rot_r true = .ok a.rot_g ∧
  (a.afm_sign = -1 ∨ a.afm_sign = 1) ∧ (a.time_sign = -1 ∨ a.time_sign = 1)

instance (a : SymmOp) : Decidable a.WF := by
  unfold WF; infer_instance

end SymmOp

/-- The identity operation (identity rotation, zero translation, both signs +1). -/
def opE : SymmOp :=
  { rot_r := id3, rotm1_r := id3, tau := v0, time_sign := 1, afm_sign := 1, rot_g := id3 }

example : mkSymmOp id3 v0 1 1 none = .ok opE := by with_unfolding_all decide
example : opE.isE = true := by with_unfolding_all decide

/-! `OpSequence` algorithms: `asdict`, `is_group`, `mult_table`, `class_indices`.
A Python dict keyed by `SymmOp` is modelled as an association list of
`(key, stored hash, value)` triples; lookup compares the stored hash and then
falls back on `__eq__`, exactly like CPython. -/

/-- One dict entry: key operation, its stored hash, and the mapped index. -/
abbrev DictEntry : Type := SymmOp × ℤ × ℕ

/-- Insert `op -> idx` into the dict: an existing key that compares hash-equal
    and `__eq__`-equal has its value replaced (the key is kept), otherwise the
    pair is appended. -/
def dictInsert : List DictEntry → SymmOp → ℤ → ℕ → List DictEntry
  | [], op, h, idx => [(op, h, idx)]
  | e :: rest, op, h, idx =>
    if e.2.1 == h && SymmOp.eqOp e.1 op then (e.1, e.2.1, idx) :: rest
    else e :: dictInsert rest op h idx

/-- Membership test `op in d` (hash first, then `__eq__`). -/
def dictMem (d : List DictEntry) (op : SymmOp) (h : ℤ) : Bool :=
  d.any (fun e => e.2.1 == h && SymmOp.eqOp e.1 op)

/-- Lookup `d[op]`, `none` playing the role of the `KeyError` branch. -/
def dictFind (d : List DictEntry) (op : SymmOp) (h : ℤ) : Option ℕ :=
  (d.find? (fun e => e.2.1 == h && SymmOp.eqOp e.1 op)).map (fun e => e.2.2)

/-- The dict comprehension inside `asdict`, folding over the enumerated
    operations; hashing each key can raise. -/
def asdictRun (ops : List (ℕ × SymmOp)) (acc : List DictEntry) :
    Except String (List DictEntry) :=
  match ops with
  | [] => .ok acc
  | (idx, op) :: rest => do
      let h ← op.hashE
      asdictRun rest (dictInsert acc op h idx)

/-- `OpSequence.asdict`: build the op -> index dict and assert that no two
    operations collapsed onto the same key. -/
def asdictE (ops : List SymmOp) : Except String (List DictEntry) := do
  let d ← asdictRun ops.enum []
  if d.length = ops.length then pure d
  else .error "AssertionError: len(d) == len(self)"

/-- `OpSequence.is_group`: one identity, all inverses present, all pairwise
    products present; each failed check adds to `check` and the method returns
    `check == 0`. -/
def is_groupE (ops : List SymmOp) : Except String Bool := do
  let check1 : ℕ := if (ops.filter (fun op => op.isE)).length ≠ 1 then 1 else 0
  let invs ← ops.mapM SymmOp.inverseE
  let check2 : ℕ :=
    if (invs.filter (fun oi => ops.any (fun o => SymmOp.eqOp o oi))).length ≠ ops.length
    then 2 else 0
  let prodRows ← ops.mapM (fun op1 => ops.mapM (fun op2 => op1.mulE op2))
  let d ← asdictE ops
  let flags ← prodRows.flatten.mapM (fun op12 => do
    let h ← op12.hashE
    pure (dictMem d op12 h))
  let check3 : ℕ := (flags.filter (fun f => f = false)).length
  pure (decide (check1 + check2 + check3 = 0))

/-- `OpSequence.mult_table`: an nxn integer numpy array whose `(i,j)` entry is
    the dict index of `S_i * S_j`; a product that is missing from the dict makes
    Python store `None` into an integer array, which raises `TypeError`. -/
def mult_tableE (ops : List SymmOp) : Except String (List (List ℤ)) := do
  let d ← asdictE ops
  ops.mapM (fun op1 => ops.mapM (fun op2 => do
    let op12 ← op1.mulE op2
    let h ← op12.hashE
    match dictFind d op12 h with
    | some idx => pure (idx : ℤ)
    | none => .error "TypeError: int() argument cannot be None"))

/-- The innermost `kk` scan of `class_indices`: mark every not-yet-found
    operation equal to the conjugate and collect its index. `k0` is the index
    of the first element of `l` in the full sequence. -/
def scanMark (conj : SymmOp) : List (SymmOp × Bool) → ℕ →
    List (SymmOp × Bool) × List ℕ
  | [], _ => ([], [])
  | (op, fnd) :: rest, k0 =>
    let r := scanMark conj rest (k0 + 1)
    if !fnd && SymmOp.eqOp conj op then ((op, true) :: r.1, k0 :: r.2)
    else ((op, fnd) :: r.1, r.2)

/-- The `jj` loop of `class_indices`: conjugate `op1` by every operation and
    mark all matches, accumulating the indices of the class of `op1`. -/
def innerConj (op1 : SymmOp) : List SymmOp → List (SymmOp × Bool) → List ℕ →
    Except String (List (SymmOp × Bool) × List ℕ)
  | [], pairs, acc => .ok (pairs, acc)
  | op2 :: rest, pairs, acc => do
      let conj ← SymmOp.opconjE op1 op2
      let r := scanMark conj pairs 0
      innerConj op1 rest r.1 (acc ++ r.2)

/-- The `ii` loop of `class_indices` over the (still to visit) positions. -/
def classLoop (ops : List SymmOp) : List ℕ → List (SymmOp × Bool) →
    List (List ℕ) → Except String (List (SymmOp × Bool) × List (List ℕ))
  | [], pairs, classes => .ok (pairs, classes)
  | ii :: rest, pairs, classes =>
    if (pairs.getD ii (default, true)).2 then classLoop ops rest pairs classes
    else do
      let st ← innerConj (ops.getD ii default) ops pairs []
      classLoop ops rest st.1 (classes ++ [st.2])

/-- `OpSequence.class_indices`: partition the operations into conjugacy classes
    and assert the class sizes sum to the group order. -/
def class_indicesE (ops : List SymmOp) : Except String (List (List ℕ)) := do
  let st ← classLoop ops (List.range ops.length) (ops.map (fun op => (op, false))) []
  if (st.2.map List.length).sum = ops.length then pure st.2
  else .error "AssertionError: sum(len(c) for c in class_indices) == len(self)"

/-- The spatial inversion operation, used as a second group element in tests. -/
def opInv : SymmOp :=
  { rot_r := fun i j => if i = j then -1 else 0,
    rotm1_r := fun i j => if i = j then -1 else 0,
    tau := v0, time_sign := 1, afm_sign := 1,
    rot_g := fun i j => if i = j then -1 else 0 }

example : is_groupE [opE] = .ok true := by with_unfolding_all decide
example : is_groupE [opE, opInv] = .ok true := by with_unfolding_all decide
example : (is_groupE [opE, opE]).isOk = false := by with_unfolding_all decide
example : class_indicesE [opE, opInv] = .ok [[0], [1]] := by with_unfolding_all decide
example : mult_tableE [opE, opInv] = .ok [[0, 1], [1, 0]] := by with_unfolding_all decide

/-! `SpaceGroup`, `find_little_group` and `LittleGroup`. -/

/-- Container storing the space-group symmetries, mirroring the attributes
    set by `SpaceGroup.__init__`. -/
structure SpaceGroup where
  spgid : ℕ
  has_timerev : Bool
  symrel : List Mat3
  tnons : List Vec3
  symafm : List ℤ
  symrec : List Mat3
  ops : List SymmOp

/-- Modelled from the spec: `is_same_point(Sk, k)` (the `issamek` helper lives
    in `abipy.core.kpoints`, outside the symmetry core) is true iff `Sk - k`
    is an integer vector within tolerance. -/
def issamek (k1 k2 : Vec3) : Bool :=
  is_integerB (k1 - k2) ATOL_TAU

/-- `np.array(np.round(v), dtype=np.int)` on a 3-vector. -/
def roundVec (v : Vec3) : Fin 3 → ℤ := fun i => rndEven (v i)

/-- `SymmOp.preserve_k` with `ret_g0=True`: whether `S(k)` equals `k` modulo a
    reciprocal lattice vector, together with `g0 = round(S(k) - k)`. -/
def preserve_k (op : SymmOp) (k : Vec3) : Bool × (Fin 3 → ℤ) :=
  let sk := op.rotate_k k
  (issamek sk k, roundVec (sk - k))

/-- `SpaceGroup.__init__`: validate `spgid` and `inord`, require the three
    arrays to share their leading length, optionally transpose Fortran-ordered
    rotations, derive `symrec` by `mati3inv`, and build the full operation list
    as time signs x spatial operations. -/
def mkSpaceGroup (spgid : ℕ) (symrel : List Mat3) (tnons : List Vec3)
    (symafm : List ℤ) (has_timerev : Bool) (inord : String) :
    Except String SpaceGroup := do
  if spgid ≥ 233 then
    .error "AssertionError: spgid in range(0, 233)"
  else if inord.toUpper ≠ "C" ∧ inord.toUpper ≠ "F" then
    .error "AssertionError: inord in C F"
  else if symrel.length ≠ tnons.length ∨ symrel.length ≠ symafm.length then
    .error "ValueError: symrel, tnons and symafm must have equal shape[0]"
  else do
    let symrel' := if inord.toUpper = "F" then symrel.map mat3T else symrel
    let symrec ← symrel'.mapM (fun m => mati3inv m true)
    let time_signs : List ℤ := if has_timerev then [1, -1] else [1]
    let all_syms ← time_signs.mapM (fun ts =>
      ((symrel'.zip tnons).zip (symafm.zip symrec)).mapM (fun x =>
        mkSymmOp x.1.1 x.1.2 ts x.2.1 (some x.2.2)))
    pure { spgid := spgid, has_timerev := has_timerev, symrel := symrel',
           tnons := tnons, symafm := symafm, symrec := symrec,
           ops := all_syms.flatten }

/-- `SpaceGroup.fm_symmops`: the operations with ferromagnetic sign `+1`
    (`symmops(time_sign=None, afm_sign=+1)` filters on the afm sign only). -/
def fm_symmops (sg : SpaceGroup) : List SymmOp :=
  sg.ops.filter (fun op => op.afm_sign = 1)

/-- A `LittleGroup` value: the wavevector, the recorded operations and their
    `g0` vectors. (The point-group annotation `kgroup` resolved through the
    external `get_point_group` collaborator is outside the model.) -/
structure LittleGroup where
  kpoint : Vec3
  symmops : List SymmOp
  g0vecs : List (Fin 3 → ℤ)

/-- `SpaceGroup.find_little_group`: enumerate the ferromagnetic operations,
    keep the positions whose operation preserves `k` (with offset `g0`), then
    read the recorded operations off `self[i]` — the *full* operation list —
    at those positions. -/
def find_little_group (sg : SpaceGroup) (k : Vec3) : LittleGroup :=
  let hits := (fm_symmops sg).enum.filterMap (fun x =>
    let pg := preserve_k x.2 k
    if pg.1 then some (x.1, pg.2) else none)
  { kpoint := k,
    symmops := hits.map (fun h => sg.ops.getD h.1 default),
    g0vecs := hits.map (fun h => h.2) }

/-! `Irrep`: packed representation matrices and per-class characters. -/

/-- Trace of a square rational matrix (`mat.trace()`). -/
def traceQ {d : ℕ} (m : Fin d → Fin d → ℚ) : ℚ :=
  (List.finRange d).foldl (fun acc i => acc + m i i) 0

/-- An irreducible representation: name, matrices, traces, class ranges and
    the per-class characters derived in `Irrep.__init__`. -/
structure Irrep (d : ℕ) where
  name : String
  mats : List (Fin d → Fin d → ℚ)
  traces : List ℚ
  class_range : List (ℕ × ℕ)
  character : List ℚ

/-- `Irrep.__init__`: store the matrices, take their traces, and for each
    class `(start, stop)` record `traces[start]` as the class character; the
    constancy flag `isok = all(t0 == traces[i] ...)` is computed and then
    discarded by the source. An out-of-range `start` is an `IndexError`. -/
def mkIrrep (d : ℕ) (name : String) (mats : List (Fin d → Fin d → ℚ))
    (class_range : List (ℕ × ℕ)) : Except String (Irrep d) := do
  let traces := mats.map traceQ
  let character ← class_range.mapM (fun se =>
    match traces.get? se.1 with
    | some t0 => pure t0
    | none => .error "IndexError: traces[start]")
  pure { name := name, mats := mats, traces := traces,
         class_range := class_range, character := character }

/-! The 32-entry Schoenflies / Hermann-Mauguin / space-group-id table and the
symbol translators. -/

/-- The `_PTG_IDS` table: `(Schoenflies, Hermann-Mauguin, spgid)`. -/
def PTG_IDS : List (String × String × ℕ) :=
  [("C1", "1", 1), ("Ci", "-1", 2), ("C2", "2", 3), ("Cs", "m", 6),
   ("C2h", "2/m", 10), ("D2", "222", 16), ("C2v", "mm2", 25), ("D2h", "mmm", 47),
   ("C4", "4", 75), ("S4", "-4", 81), ("C4h", "4/m", 83), ("D4", "422", 89),
   ("C4v", "4mm", 99), ("D2d", "-42m", 111), ("D4h", "4/mmm", 123),
   ("C3", "3", 143), ("C3i", "-3", 147), ("D3", "32", 149), ("C3v", "3m", 156),
   ("D3d", "-3m", 162), ("C6", "6", 168), ("C3h", "-6", 174), ("C6h", "6/m", 175),
   ("D6", "622", 177), ("C6v", "6mm", 183), ("D3h", "-6m2", 189),
   ("D6h", "6/mmm", 191), ("T", "23", 195), ("Th", "m-3", 200), ("O", "432", 207),
   ("Td", "-43m", 215), ("Oh", "m-3m", 221)]

/-- `sch2herm`: Schoenflies to Hermann-Mauguin (`None` when absent). -/
def sch2herm (s : String) : Option String :=
  (PTG_IDS.find? (fun t => t.1 == s)).map (fun t => t.2.1)

/-- `herm2sch`: Hermann-Mauguin to Schoenflies (`None` when absent). -/
def herm2sch (h : String) : Option String :=
  (PTG_IDS.find? (fun t => t.2.1 == h)).map (fun t => t.1)

/-- `spgid2sch`: space-group identifier to Schoenflies (`None` when absent). -/
def spgid2sch (n : ℕ) : Option String :=
  (PTG_IDS.find? (fun t => t.2.2 == n)).map (fun t => t.1)

/-- Argument of `any2sch`: a string or a space-group number. -/
inductive SchArg where
  | str (s : String)
  | num (n : ℕ)

/-- `any2sch`: a known Schoenflies symbol is returned as is, any other string
    is treated as Hermann-Mauguin, a number as a space-group identifier. -/
def any2sch : SchArg → Option String
  | .str s => if (PTG_IDS.map (fun t => t.1)).contains s then some s else herm2sch s
  | .num n => spgid2sch n

/-! Concrete inputs used by the counterexample and bug-witness theorems. -/

/-- The matrix `[[2,0,0],[0,1,0],[0,0,1]]` with determinant 2. -/
def mDet2 : Mat3 := fun i j => if i = j then (if i = 0 then 2 else 1) else 0

/-- The unimodular mirror `diag(-1, 1, 1)`. -/
def mMirror : Mat3 := fun i j => if i = j then (if i = 0 then -1 else 1) else 0

/-- The mirror symmetry operation, tagged antiferromagnetic. -/
def opMirrorAfm : SymmOp :=
  { rot_r := mMirror, rotm1_r := mMirror, tau := v0,
    time_sign := 1, afm_sign := -1, rot_g := mMirror }

/-- Identity rotation with the non-lattice translation `(1/2, 0, 0)`. -/
def opHalf : SymmOp :=
  { rot_r := id3, rotm1_r := id3,
    tau := fun i => if i = 0 then mkRat 1 2 else 0,
    time_sign := 1, afm_sign := 1, rot_g := id3 }

/-- The wavevector `(1/4, 0, 0)`. -/
def k14 : Vec3 := fun i => if i = 0 then mkRat 1 4 else 0

/-! Pure value-level versions of the fallible constructors, used to state what
the fallible code returns when it does not raise. -/

/-- A matrix is unimodular when its determinant is +1 or -1. -/
def unimodular (m : Mat3) : Prop := detRaw m = 1 ∨ detRaw m = -1

instance (m : Mat3) : Decidable (unimodular m) := by unfold unimodular; infer_instance

/-- The hash value `8*trace + 4*det + 2*time_sign` (defined whenever the
    determinant check passes). -/
def hashPure (a : SymmOp) : ℤ := 8 * traceI a.rot_r + 4 * detRaw a.rot_r + 2 * a.time_sign

/-- The operation `SymmOp.__mul__` builds when the constructor succeeds. -/
def SymmOp.mulPure (a b : SymmOp) : SymmOp :=
  { rot_r := mat3mul a.rot_r b.rot_r,
    rotm1_r := mati3invRaw (mat3mul a.rot_r b.rot_r) false,
    tau := a.tau + mat3vec a.rot_r b.tau,
    time_sign := a.time_sign * b.time_sign,
    afm_sign := a.afm_sign * b.afm_sign,
    rot_g := mati3invRaw (mat3mul a.rot_r b.rot_r) true }

/-- The operation `SymmOp.inverse` builds when the constructor succeeds. -/
def SymmOp.invPure (a : SymmOp) : SymmOp :=
  { rot_r := a.rotm1_r,
    rotm1_r := mati3invRaw a.rotm1_r false,
    tau := -(mat3vec a.rotm1_r a.tau),
    time_sign := a.time_sign,
    afm_sign := a.afm_sign,
    rot_g := mati3invRaw a.rotm1_r true }

/-- The conjugate `other.inverse() * self * other` as a pure value. -/
def SymmOp.conjPure (self other : SymmOp) : SymmOp :=
  SymmOp.mulPure (SymmOp.mulPure other.invPure self) other

/-- The Boolean the `is_group` checks amount to: exactly one identity, every
    inverse found in the set by equality search, every ordered pairwise
    product found in the set. -/
def groupSpecB (ops : List SymmOp) : Bool :=
  ((ops.filter (fun op => op.isE)).length == 1) &&
  (ops.all (fun op => ops.any (fun o => SymmOp.eqOp o op.invPure))) &&
  (ops.all (fun o1 => ops.all (fun o2 =>
    ops.any (fun k => SymmOp.eqOp k (SymmOp.mulPure o1 o2)))))

/-- Pure version of the `jj` loop of `class_indices`. -/
def innerPure (op1 : SymmOp) : List SymmOp → List (SymmOp × Bool) → List ℕ →
    List (SymmOp × Bool) × List ℕ
  | [], pairs, acc => (pairs, acc)
  | op2 :: rest, pairs, acc =>
    let r := scanMark (SymmOp.conjPure op1 op2) pairs 0
    innerPure op1 rest r.1 (acc ++ r.2)

/-- Pure version of the `ii` loop of `class_indices`. -/
def classPure (ops : List SymmOp) : List ℕ → List (SymmOp × Bool) →
    List (List ℕ) → List (SymmOp × Bool) × List (List ℕ)
  | [], pairs, classes => (pairs, classes)
  | ii :: rest, pairs, classes =>
    if (pairs.getD ii (default, true)).2 then classPure ops rest pairs classes
    else
      let st := innerPure (ops.getD ii default) ops pairs []
      classPure ops rest st.1 (classes ++ [st.2])

/-- Loop invariant of `class_indices`: the operation components of the paired
    state are the original operations, the indices collected so far are
    duplicate-free, and an index is collected exactly when its found-flag is
    set. -/
def classInv (ops : List SymmOp) (pairs : List (SymmOp × Bool))
    (js : List ℕ) : Prop :=
  pairs.map Prod.fst = ops ∧ js.Nodup ∧
  (∀ m, m ∈ js ↔ ∃ p, pairs[m]? = some p ∧ p.2 = true)

end Abipy

namespace Abipy

/-! Theorems settling the claims. -/

/-- C9: for every tabulated Schoenflies symbol `s`, translating to
    Hermann-Mauguin and back through the any-to-Schoenflies translator
    returns exactly `s`. -/
theorem c9_sch_herm_roundtrip :
    (PTG_IDS.all (fun t =>
      ((sch2herm t.1).bind (fun h => any2sch (.str h))) == some t.1)) = true := by
  with_unfolding_all decide

/-- C3 counterexample: constructing a `SymmOp` whose rotation matrix is
    `[[2,0,0],[0,1,0],[0,0,1]]` (determinant 2) succeeds — no error is raised
    at construction time, refuting the claim that construction raises. -/
theorem c3_det2_construction_succeeds :
    (mkSymmOp mDet2 v0 1 1 none).isOk = true := by
  with_unfolding_all decide

/-- C3 amended: a determinant-2 rotation is accepted by the `SymmOp`
    constructor (only a zero column-expansion determinant is rejected there);
    the `determinant must be +-1` error fires only when the lazily computed
    `det` property (`_get_det`) is first accessed, e.g. through `hash`. -/
theorem c3_det2_lazy_error :
    (∃ op, mkSymmOp mDet2 v0 1 1 none = .ok op ∧
      op.hashE = (getDetE mDet2).map (fun d => 8 * traceI mDet2 + 4 * d + 2)) ∧
    getDetE mDet2 = .error "ValueError: determinant must be \\pm 1 while it is 2" := by
  refine ⟨⟨{ rot_r := mDet2,
             rotm1_r := fun i j => if i = j then (if i = 0 then 0 else 1) else 0,
             tau := v0, time_sign := 1, afm_sign := 1,
             rot_g := fun i j => if i = j then (if i = 0 then 0 else 1) else 0 },
           by with_unfolding_all decide, by with_unfolding_all decide⟩,
         by with_unfolding_all decide⟩

/-- C5: an `Irrep` whose two matrices fall in a single class but have unequal
    traces (1 and 2) is constructed without complaint, and the recorded class
    character is just the first trace: the within-class constancy check `isok`
    is computed and discarded, never enforced. -/
theorem c5_irrep_nonconstant_trace_accepted :
    (mkIrrep 1 "A" [fun _ _ => (1 : ℚ), fun _ _ => (2 : ℚ)] [(0, 2)]).map
        (fun ir => ir.character) = .ok [1] ∧
    @traceQ 1 (fun _ _ => (2 : ℚ)) = 2 ∧ (1 : ℚ) ≠ 2 := by
  refine ⟨by with_unfolding_all decide, by with_unfolding_all decide,
    by with_unfolding_all decide⟩

/-- C2: on the one-element operation set `{E + (1/2,0,0)}`, which is not
    closed, `mult_table` raises (`None` cannot be stored in an integer numpy
    array) instead of returning a table with a `None` entry; on the closed
    two-element group `{E, I}` it returns the expected index table. -/
theorem c2_mult_table_raises_on_open_set :
    mult_tableE [opHalf] = .error "TypeError: int() argument cannot be None" ∧
    mult_tableE [opE, opInv] = .ok [[0, 1], [1, 0]] := by
  refine ⟨by with_unfolding_all decide, by with_unfolding_all decide⟩

/-- C4 counterexample: on the duplicate-containing set `[E, E]`, `is_group`
    raises (the `asdict` length assertion fails) instead of returning `False`,
    refuting "returns a boolean and never raises". -/
theorem c4_is_group_raises_on_duplicates :
    is_groupE [opE, opE] = .error "AssertionError: len(d) == len(self)" := by
  with_unfolding_all decide

/-- C1: on the space group `[mirror (afm), identity (fm)]` with no time
    reversal, `find_little_group((1/4,0,0))` records — through the index
    mismatch between `fm_symmops` and the full list — the antiferromagnetic
    mirror, which moreover does not preserve `k`, while the `g0` vector `0`
    was computed from the ferromagnetic identity. -/
theorem c1_little_group_returns_afm_op :
    (mkSpaceGroup 1 [mMirror, id3] [v0, v0] [-1, 1] false "C").map (fun sg =>
      ((find_little_group sg k14).symmops.map
          (fun op => (op.afm_sign, (preserve_k op k14).1)),
        (find_little_group sg k14).g0vecs.map (fun g => (g 0, g 1, g 2)))) =
      .ok ([(-1, false)], [(0, 0, 0)]) := by
  with_unfolding_all decide

/-- C10 counterexample: with equal-length arrays (one rotation, one
    translation, one magnetic sign), valid `spgid` and `inord`, construction
    of a `SpaceGroup` still fails when the magnetic sign is 0 — the contents
    are validated, so "construction succeeds regardless of the array
    contents" is false. -/
theorem c10_contents_are_validated :
    (mkSpaceGroup 1 [id3] [v0] [0] false "C").isOk = false := by
  with_unfolding_all decide

/-! Exact integer linear algebra facts about the cofactor inverse. -/

theorem ddOf_eq_detRaw (m : Mat3) : ddOf m = detRaw m := by
  unfold ddOf cofM detRaw
  ring

theorem detRaw_mul (a b : Mat3) : detRaw (mat3mul a b) = detRaw a * detRaw b := by
  unfold detRaw mat3mul
  ring

theorem detRaw_transpose (m : Mat3) : detRaw (mat3T m) = detRaw m := by
  unfold detRaw mat3T
  ring

theorem detRaw_id3 : detRaw id3 = 1 := by decide

theorem rowExpand (m : Mat3) (i j : Fin 3) :
    m i 0 * cofM m j 0 + m i 1 * cofM m j 1 + m i 2 * cofM m j 2 =
      if i = j then detRaw m else 0 := by
  fin_cases i <;> fin_cases j <;> simp [cofM, detRaw] <;> ring

theorem colExpand (m : Mat3) (i j : Fin 3) :
    cofM m 0 i * m 0 j + cofM m 1 i * m 1 j + cofM m 2 i * m 2 j =
      if i = j then detRaw m else 0 := by
  fin_cases i <;> fin_cases j <;> simp [cofM, detRaw] <;> ring

theorem fdiv_pm1 (x d : ℤ) (h : d = 1 ∨ d = -1) : Int.fdiv x d = x * d := by
  rcases h with h | h <;> subst h
  · rw [Int.fdiv_one, mul_one]
  · rw [Int.fdiv_eq_ediv_of_dvd ⟨-x, by ring⟩]
    have := Int.ediv_neg x 1
    simp only [Int.ediv_one] at this
    rw [this]
    ring

theorem unimodular_ne_zero {m : Mat3} (h : unimodular m) : detRaw m ≠ 0 := by
  rcases h with h | h <;> omega

theorem cofDiv_eq {m : Mat3} (h : unimodular m) (i j : Fin 3) :
    cofDiv m i j = cofM m i j * detRaw m := by
  unfold cofDiv
  rw [ddOf_eq_detRaw]
  exact fdiv_pm1 _ _ h

theorem detSq_one {m : Mat3} (h : unimodular m) : detRaw m * detRaw m = 1 := by
  rcases h with h | h <;> rw [h] <;> ring

/-- The value `mati3inv(m, trans=False)` actually is a two-sided inverse of a
    unimodular `m`. -/
theorem minv_mul {m : Mat3} (h : unimodular m) :
    mat3mul m (mati3invRaw m false) = id3 ∧
    mat3mul (mati3invRaw m false) m = id3 := by
  constructor
  · funext i j
    show m i 0 * mat3T (cofDiv m) 0 j + m i 1 * mat3T (cofDiv m) 1 j +
        m i 2 * mat3T (cofDiv m) 2 j = id3 i j
    simp only [mat3T, cofDiv_eq h]
    have hr := rowExpand m i j
    unfold id3
    by_cases hij : i = j <;> simp only [hij, if_true, if_false, hij] at hr ⊢
    · linear_combination detRaw m * hr + detSq_one h
    · linear_combination detRaw m * hr
  · funext i j
    show mat3T (cofDiv m) i 0 * m 0 j + mat3T (cofDiv m) i 1 * m 1 j +
        mat3T (cofDiv m) i 2 * m 2 j = id3 i j
    simp only [mat3T, cofDiv_eq h]
    have hc := colExpand m i j
    unfold id3
    by_cases hij : i = j <;> simp only [hij, if_true, if_false, hij] at hc ⊢
    · linear_combination detRaw m * hc + detSq_one h
    · linear_combination detRaw m * hc

theorem detRaw_mati3invRaw {m : Mat3} (h : unimodular m) :
    detRaw (mati3invRaw m false) = detRaw m := by
  have h1 : detRaw (mat3mul m (mati3invRaw m false)) = 1 := by
    rw [(minv_mul h).1, detRaw_id3]
  rw [detRaw_mul] at h1
  rcases h with h | h <;> rw [h] at h1 ⊢ <;> omega

theorem unimodular_mati3invRaw {m : Mat3} (h : unimodular m) :
    unimodular (mati3invRaw m false) := by
  unfold unimodular
  rw [detRaw_mati3invRaw h]
  exact h

theorem unimodular_mul {a b : Mat3} (ha : unimodular a) (hb : unimodular b) :
    unimodular (mat3mul a b) := by
  unfold unimodular at *
  rw [detRaw_mul]
  rcases ha with h | h <;> rcases hb with h' | h' <;> rw [h, h'] <;> simp

theorem mati3inv_ok {m : Mat3} (h : detRaw m ≠ 0) (trans : Bool) :
    mati3inv m trans = .ok (mati3invRaw m trans) := by
  unfold mati3inv
  rw [ddOf_eq_detRaw]
  simp [h]

theorem mat3mul_id_left (m : Mat3) : mat3mul id3 m = m := by
  funext i j
  show id3 i 0 * m 0 j + id3 i 1 * m 1 j + id3 i 2 * m 2 j = m i j
  fin_cases i <;> simp [id3]

theorem mat3vec_id (v : Vec3) : mat3vec id3 v = v := by
  funext i
  show (id3 i 0 : ℚ) * v 0 + (id3 i 1 : ℚ) * v 1 + (id3 i 2 : ℚ) * v 2 = v i
  fin_cases i <;> simp [id3]

theorem mat3vec_comp (a b : Mat3) (v : Vec3) :
    mat3vec a (mat3vec b v) = mat3vec (mat3mul a b) v := by
  funext i
  show (a i 0 : ℚ) * mat3vec b v 0 + (a i 1 : ℚ) * mat3vec b v 1 +
      (a i 2 : ℚ) * mat3vec b v 2 = mat3vec (mat3mul a b) v i
  unfold mat3vec mat3mul
  push_cast
  ring

theorem mat3vec_neg (m : Mat3) (v : Vec3) :
    mat3vec m (-v) = -(mat3vec m v) := by
  funext i
  simp only [mat3vec, Pi.neg_apply]
  ring

/-! Success lemmas for the fallible `SymmOp` constructors. -/

/-- Well-formed operation with unimodular rotation: the setting in which the
    symmetry algebra behaves. -/
def wfU (a : SymmOp) : Prop := a.WF ∧ unimodular a.rot_r

theorem sign_mul_pm1 {x y : ℤ} (hx : x = -1 ∨ x = 1) (hy : y = -1 ∨ y = 1) :
    x * y = -1 ∨ x * y = 1 := by
  rcases hx with h | h <;> rcases hy with h' | h' <;> subst h <;> subst h' <;> simp

theorem mkSymmOp_ok_none {rot : Mat3} (tau : Vec3) {ts asn : ℤ}
    (hd : detRaw rot ≠ 0) (ha : asn = -1 ∨ asn = 1) (ht : ts = -1 ∨ ts = 1) :
    mkSymmOp rot tau ts asn none =
      .ok { rot_r := rot, rotm1_r := mati3invRaw rot false, tau := tau,
            time_sign := ts, afm_sign := asn, rot_g := mati3invRaw rot true } := by
  unfold mkSymmOp
  rw [mati3inv_ok hd false, mati3inv_ok hd true]
  rcases ha with h | h <;> rcases ht with h' | h' <;> subst h <;> subst h' <;>
    simp [Bind.bind, Except.bind, Pure.pure, Except.pure]

theorem mkSymmOp_ok_some {rot : Mat3} (tau : Vec3) {ts asn : ℤ}
    (hd : detRaw rot ≠ 0) (ha : asn = -1 ∨ asn = 1) (ht : ts = -1 ∨ ts = 1) :
    mkSymmOp rot tau ts asn (some (mati3invRaw rot true)) =
      .ok { rot_r := rot, rotm1_r := mati3invRaw rot false, tau := tau,
            time_sign := ts, afm_sign := asn, rot_g := mati3invRaw rot true } := by
  unfold mkSymmOp
  rw [mati3inv_ok hd false, mati3inv_ok hd true]
  rcases ha with h | h <;> rcases ht with h' | h' <;> subst h <;> subst h' <;>
    simp [Bind.bind, Except.bind, Pure.pure, Except.pure]

theorem WF.rotm1_eq {a : SymmOp} (h : wfU a) :
    a.rotm1_r = mati3invRaw a.rot_r false := by
  have h1 := h.1.1
  rw [mati3inv_ok (unimodular_ne_zero h.2) false] at h1
  exact (Except.ok.inj h1).symm

theorem WF.rot_g_eq {a : SymmOp} (h : wfU a) :
    a.rot_g = mati3invRaw a.rot_r true := by
  have h1 := h.1.2.1
  rw [mati3inv_ok (unimodular_ne_zero h.2) true] at h1
  exact (Except.ok.inj h1).symm

theorem wfU.unimodular_rotm1 {a : SymmOp} (h : wfU a) : unimodular a.rotm1_r := by
  rw [WF.rotm1_eq h]
  exact unimodular_mati3invRaw h.2

theorem wfU.mul_rotm1 {a : SymmOp} (h : wfU a) :
    mat3mul a.rot_r a.rotm1_r = id3 ∧ mat3mul a.rotm1_r a.rot_r = id3 := by
  rw [WF.rotm1_eq h]
  exact minv_mul h.2

theorem inverseE_ok {a : SymmOp} (h : wfU a) : a.inverseE = .ok a.invPure := by
  unfold SymmOp.inverseE SymmOp.invPure
  exact mkSymmOp_ok_none _ (unimodular_ne_zero (wfU.unimodular_rotm1 h))
    h.1.2.2.1 h.1.2.2.2

theorem mulE_ok {a b : SymmOp} (ha : wfU a) (hb : wfU b) :
    a.mulE b = .ok (a.mulPure b) := by
  unfold SymmOp.mulE SymmOp.mulPure
  exact mkSymmOp_ok_none _
    (unimodular_ne_zero (unimodular_mul ha.2 hb.2))
    (sign_mul_pm1 ha.1.2.2.1 hb.1.2.2.1) (sign_mul_pm1 ha.1.2.2.2 hb.1.2.2.2)

theorem wfU_invPure {a : SymmOp} (h : wfU a) : wfU a.invPure := by
  have hu := wfU.unimodular_rotm1 h
  refine ⟨⟨?_, ?_, h.1.2.2.1, h.1.2.2.2⟩, hu⟩
  · exact mati3inv_ok (unimodular_ne_zero hu) false
  · exact mati3inv_ok (unimodular_ne_zero hu) true

theorem wfU_mulPure {a b : SymmOp} (ha : wfU a) (hb : wfU b) :
    wfU (a.mulPure b) := by
  have hu := unimodular_mul ha.2 hb.2
  refine ⟨⟨?_, ?_, sign_mul_pm1 ha.1.2.2.1 hb.1.2.2.1,
    sign_mul_pm1 ha.1.2.2.2 hb.1.2.2.2⟩, hu⟩
  · exact mati3inv_ok (unimodular_ne_zero hu) false
  · exact mati3inv_ok (unimodular_ne_zero hu) true

theorem opconjE_ok {a b : SymmOp} (ha : wfU a) (hb : wfU b) :
    SymmOp.opconjE a b = .ok (SymmOp.conjPure a b) := by
  unfold SymmOp.opconjE SymmOp.conjPure
  rw [inverseE_ok hb]
  show (SymmOp.mulE b.invPure a) >>= _ = _
  rw [mulE_ok (wfU_invPure hb) ha]
  show SymmOp.mulE _ b = _
  exact mulE_ok (wfU_mulPure (wfU_invPure hb) ha) hb

theorem hashE_ok {a : SymmOp} (h : unimodular a.rot_r) :
    a.hashE = .ok (hashPure a) := by
  unfold SymmOp.hashE getDetE hashPure
  have : (detRaw a.rot_r).natAbs = 1 := by
    rcases h with h' | h' <;> rw [h'] <;> rfl
  simp [this]

theorem eqOp_true_iff (a b : SymmOp) :
    SymmOp.eqOp a b = true ↔
      a.rot_r = b.rot_r ∧ is_integerB (a.tau - b.tau) ATOL_TAU = true ∧
      a.afm_sign = b.afm_sign ∧ a.time_sign = b.time_sign := by
  unfold SymmOp.eqOp
  simp [Bool.and_eq_true, decide_eq_true_eq, beq_iff_eq, and_assoc]

theorem hashPure_congr {a b : SymmOp} (h : SymmOp.eqOp a b = true) :
    hashPure a = hashPure b := by
  obtain ⟨hr, -, -, hts⟩ := (eqOp_true_iff a b).1 h
  unfold hashPure traceI
  rw [hr, hts]

theorem is_integerB_v0 : is_integerB v0 ATOL_TAU = true := by
  with_unfolding_all decide

/-- C8: equal operations (identical rotations, translations modulo a lattice
    vector, identical signs) have equal hashes, and the hash — a function of
    the rotation trace, determinant and time sign only — is strictly coarser
    than equality. -/
theorem c8_hash_respects_eq_and_is_coarser :
    (∀ a b : SymmOp, SymmOp.eqOp a b = true → a.hashE = b.hashE) ∧
    (∃ a b : SymmOp, a.hashE = b.hashE ∧ SymmOp.eqOp a b = false) := by
  constructor
  · intro a b h
    obtain ⟨hr, -, -, hts⟩ := (eqOp_true_iff a b).1 h
    unfold SymmOp.hashE getDetE traceI
    rw [hr, hts]
  · exact ⟨opE, { opE with afm_sign := -1 }, by with_unfolding_all decide,
      by with_unfolding_all decide⟩

/-- C8 witness: the identity and the identity shifted by the lattice vector
    `(1,1,1)` are equal operations with equal hashes. -/
theorem c8_witness :
    SymmOp.eqOp opE { opE with tau := fun _ => 1 } = true ∧
    SymmOp.hashE opE = SymmOp.hashE { opE with tau := fun _ => 1 } :=
  ⟨by with_unfolding_all decide,
    c8_hash_respects_eq_and_is_coarser.1 opE { opE with tau := fun _ => 1 }
      (by with_unfolding_all decide)⟩

/-- C6: for every well-formed operation with unimodular rotation, the product
    with its own inverse is the identity: identity rotation, integer
    translation, time and magnetic signs `+1`. -/
theorem c6_prod_with_inverse_is_identity (a : SymmOp) (hwf : a.WF)
    (hu : unimodular a.rot_r) :
    ∃ ai p, a.inverseE = .ok ai ∧ a.mulE ai = .ok p ∧ p.isE = true := by
  have h : wfU a := ⟨hwf, hu⟩
  refine ⟨a.invPure, a.mulPure a.invPure, inverseE_ok h,
    mulE_ok h (wfU_invPure h), ?_⟩
  have hrot : (a.mulPure a.invPure).rot_r = id3 := (wfU.mul_rotm1 h).1
  have htau : (a.mulPure a.invPure).tau = v0 := by
    show a.tau + mat3vec a.rot_r (-(mat3vec a.rotm1_r a.tau)) = v0
    rw [mat3vec_neg, mat3vec_comp, (wfU.mul_rotm1 h).1, mat3vec_id]
    funext i
    show a.tau i + (-(a.tau)) i = v0 i
    simp [v0]
  have hts : (a.mulPure a.invPure).time_sign = 1 := by
    show a.time_sign * a.time_sign = 1
    rcases hwf.2.2.2 with h' | h' <;> rw [h'] <;> ring
  have hafm : (a.mulPure a.invPure).afm_sign = 1 := by
    show a.afm_sign * a.afm_sign = 1
    rcases hwf.2.2.1 with h' | h' <;> rw [h'] <;> ring
  unfold SymmOp.isE
  rw [Bool.and_eq_true, Bool.and_eq_true, Bool.and_eq_true]
  refine ⟨⟨⟨?_, ?_⟩, ?_⟩, ?_⟩
  · exact decide_eq_true_eq.mpr hrot
  · rw [htau]; exact is_integerB_v0
  · rw [hts]; rfl
  · rw [hafm]; rfl

/-- C6 witness: instantiated at the identity operation. -/
theorem c6_witness :
    ∃ ai p, opE.inverseE = .ok ai ∧ opE.mulE ai = .ok p ∧ p.isE = true :=
  c6_prod_with_inverse_is_identity opE (by with_unfolding_all decide) (by decide)

/-! Monadic bookkeeping over `Except`. -/

theorem okBind {α β : Type} (a : α) (f : α → Except String β) :
    (Except.ok a >>= f) = f a := rfl

theorem exceptBind_ok {α β : Type} {x : Except String α} {f : α → Except String β}
    {b : β} (h : x >>= f = .ok b) : ∃ a, x = .ok a ∧ f a = .ok b := by
  cases x with
  | error e => simp [Bind.bind, Except.bind] at h
  | ok a => exact ⟨a, rfl, by simpa [Bind.bind, Except.bind] using h⟩

theorem mapM_ok {α β : Type} {f : α → Except String β} (g : α → β) :
    ∀ {l : List α}, (∀ x ∈ l, f x = .ok (g x)) → l.mapM f = .ok (l.map g) := by
  intro l
  induction l with
  | nil => intro _; rfl
  | cons a t ih =>
    intro h
    rw [List.mapM_cons, h a (by simp), ih (fun x hx => h x (by simp [hx]))]
    rfl

theorem mapM_ok_inv {α β : Type} {f : α → Except String β} :
    ∀ {l : List α} {ys : List β}, l.mapM f = .ok ys → ∀ x ∈ l, ∃ y, f x = .ok y := by
  intro l
  induction l with
  | nil => intro ys _ x hx; cases hx
  | cons a t ih =>
    intro ys h x hx
    rw [List.mapM_cons] at h
    obtain ⟨y, hy, hrest⟩ := exceptBind_ok h
    obtain ⟨ys', hys', -⟩ := exceptBind_ok hrest
    rcases List.mem_cons.1 hx with hx | hx
    · rw [hx]; exact ⟨y, hy⟩
    · exact ih hys' x hx

theorem dictInsert_append {acc : List DictEntry} {op : SymmOp} {h : ℤ} {idx : ℕ}
    (hno : ∀ e ∈ acc, SymmOp.eqOp e.1 op = false) :
    dictInsert acc op h idx = acc ++ [(op, h, idx)] := by
  induction acc with
  | nil => rfl
  | cons e t ih =>
    unfold dictInsert
    rw [hno e (by simp), Bool.and_false]
    simp only [Bool.false_eq_true, if_false, List.cons_append]
    exact congrArg (e :: ·) (ih (fun x hx => hno x (by simp [hx])))

theorem asdictRun_full :
    ∀ (l : List (ℕ × SymmOp)) (acc : List DictEntry),
    (∀ x ∈ l, unimodular x.2.rot_r) →
    (∀ e ∈ acc, ∀ x ∈ l, SymmOp.eqOp e.1 x.2 = false) →
    List.Pairwise (fun a b => SymmOp.eqOp a.2 b.2 = false) l →
    asdictRun l acc = .ok (acc ++ l.map (fun x => (x.2, hashPure x.2, x.1))) := by
  intro l
  induction l with
  | nil => intro acc _ _ _; simp [asdictRun]
  | cons a t ih =>
    intro acc hu hacc hp
    show (a.2.hashE >>= fun h => asdictRun t (dictInsert acc a.2 h a.1)) = _
    rw [hashE_ok (hu a (by simp))]
    show asdictRun t (dictInsert acc a.2 (hashPure a.2) a.1) = _
    rw [dictInsert_append (fun e he => hacc e he a (by simp))]
    rw [ih (acc ++ [(a.2, hashPure a.2, a.1)])
      (fun x hx => hu x (by simp [hx]))
      (fun e he x hx => by
        rcases List.mem_append.1 he with he | he
        · exact hacc e he x (by simp [hx])
        · simp at he
          rw [he]
          exact (List.pairwise_cons.1 hp).1 x hx)
      (List.pairwise_cons.1 hp).2]
    simp

theorem asdictRun_hash_ok :
    ∀ {l : List (ℕ × SymmOp)} {acc d : List DictEntry},
    asdictRun l acc = .ok d → ∀ x ∈ l, ∃ h, x.2.hashE = .ok h := by
  intro l
  induction l with
  | nil => intro acc d _ x hx; cases hx
  | cons a t ih =>
    intro acc d h x hx
    have h' : (a.2.hashE >>= fun hh => asdictRun t (dictInsert acc a.2 hh a.1)) = .ok d := h
    obtain ⟨hh, hhok, hrest⟩ := exceptBind_ok h'
    rcases List.mem_cons.1 hx with hx | hx
    · rw [hx]; exact ⟨hh, hhok⟩
    · exact ih hrest x hx

theorem enum_map_snd (l : List SymmOp) : l.enum.map Prod.snd = l :=
  List.enumFrom_map_snd 0 l

theorem any_map' {α β : Type} (f : α → β) (p : β → Bool) :
    ∀ l : List α, (l.map f).any p = l.any (fun a => p (f a)) := by
  intro l
  induction l with
  | nil => rfl
  | cons a t ih => simp [ih]

theorem enum_snd_mem {ops : List SymmOp} {x : ℕ × SymmOp} (hx : x ∈ ops.enum) :
    x.2 ∈ ops := by
  have h1 : x.2 ∈ ops.enum.map Prod.snd := List.mem_map_of_mem Prod.snd hx
  rwa [enum_map_snd] at h1

theorem asdictE_full (ops : List SymmOp)
    (hu : ∀ op ∈ ops, unimodular op.rot_r)
    (hd : List.Pairwise (fun a b => SymmOp.eqOp a b = false) ops) :
    asdictE ops = .ok (ops.enum.map (fun x => (x.2, hashPure x.2, x.1))) := by
  unfold asdictE
  have h1 : ∀ x ∈ ops.enum, unimodular x.2.rot_r :=
    fun x hx => hu x.2 (enum_snd_mem hx)
  have h2 : List.Pairwise (fun a b : ℕ × SymmOp => SymmOp.eqOp a.2 b.2 = false)
      ops.enum := by
    have hmap : (ops.enum.map Prod.snd).Pairwise
        (fun a b => SymmOp.eqOp a b = false) := by
      rw [enum_map_snd]; exact hd
    exact List.pairwise_map.mp hmap
  rw [asdictRun_full ops.enum [] h1 (by intro e he; cases he) h2]
  show (if _ = ops.length then _ else _) = _
  rw [if_pos (by simp [List.enumFrom_length])]
  rfl

theorem dictMem_spec (ops : List SymmOp) (op12 : SymmOp) :
    dictMem (ops.enum.map (fun x => (x.2, hashPure x.2, x.1))) op12 (hashPure op12) =
      ops.any (fun k => SymmOp.eqOp k op12) := by
  unfold dictMem
  have h4 : ops.any (fun k => SymmOp.eqOp k op12) =
      (ops.enum.map Prod.snd).any (fun k => SymmOp.eqOp k op12) := by
    rw [enum_map_snd]
  rw [h4, any_map', any_map']
  apply Bool.eq_iff_iff.mpr
  simp only [List.any_eq_true]
  constructor
  · rintro ⟨x, hx, hp⟩
    rw [Bool.and_eq_true] at hp
    exact ⟨x, hx, hp.2⟩
  · rintro ⟨x, hx, hp⟩
    refine ⟨x, hx, ?_⟩
    rw [Bool.and_eq_true]
    refine ⟨?_, hp⟩
    rw [hashPure_congr hp]
    exact beq_self_eq_true _

/-- C4 amended: on a duplicate-free set of well-formed operations with
    unimodular rotations, `is_group` returns (without raising) exactly the
    Boolean "one identity, all inverses present, all pairwise products
    present". -/
theorem c4_is_group_returns_bool (ops : List SymmOp)
    (hwf : ∀ op ∈ ops, op.WF) (hu : ∀ op ∈ ops, unimodular op.rot_r)
    (hd : List.Pairwise (fun a b => SymmOp.eqOp a b = false) ops) :
    is_groupE ops = .ok (groupSpecB ops) := by
  have hwfU : ∀ op ∈ ops, wfU op := fun op h => ⟨hwf op h, hu op h⟩
  have hinvs : ops.mapM SymmOp.inverseE = .ok (ops.map SymmOp.invPure) :=
    mapM_ok _ (fun x hx => inverseE_ok (hwfU x hx))
  have hprod : (ops.mapM fun op1 => ops.mapM fun op2 => op1.mulE op2) =
      .ok (ops.map fun op1 => ops.map fun op2 => op1.mulPure op2) :=
    mapM_ok _ (fun op1 h1 => mapM_ok _ (fun op2 h2 =>
      mulE_ok (hwfU op1 h1) (hwfU op2 h2)))
  have hdict := asdictE_full ops hu hd
  have hflat : ∀ op12 ∈ (ops.map fun op1 =>
      ops.map fun op2 => op1.mulPure op2).flatten,
      ∃ o1, o1 ∈ ops ∧ ∃ o2, o2 ∈ ops ∧ o1.mulPure o2 = op12 := by
    intro op12 h12
    obtain ⟨row, hrow, hmem⟩ := List.mem_flatten.1 h12
    obtain ⟨o1, ho1, hrow'⟩ := List.mem_map.1 hrow
    rw [← hrow'] at hmem
    obtain ⟨o2, ho2, h2'⟩ := List.mem_map.1 hmem
    exact ⟨o1, ho1, o2, ho2, h2'⟩
  have hflags : ((ops.map fun op1 =>
      ops.map fun op2 => op1.mulPure op2).flatten.mapM
        (fun op12 => op12.hashE >>= fun h => pure (dictMem
          (ops.enum.map (fun x => (x.2, hashPure x.2, x.1))) op12 h))) =
      .ok ((ops.map fun op1 => ops.map fun op2 => op1.mulPure op2).flatten.map
        fun op12 => dictMem (ops.enum.map (fun x => (x.2, hashPure x.2, x.1)))
          op12 (hashPure op12)) := by
    apply mapM_ok
    intro op12 h12
    obtain ⟨o1, ho1, o2, ho2, heq⟩ := hflat op12 h12
    have : unimodular op12.rot_r := by
      rw [← heq]; exact unimodular_mul (hu o1 ho1) (hu o2 ho2)
    rw [hashE_ok this]
    rfl
  unfold is_groupE
  simp only [hinvs, okBind, hprod, hdict, hflags]
  refine congrArg Except.ok ?_
  apply Bool.eq_iff_iff.mpr
  rw [decide_eq_true_eq]
  unfold groupSpecB
  rw [Bool.and_eq_true, Bool.and_eq_true]
  constructor
  · intro h0
    have hc1 : (if (ops.filter (fun op => op.isE)).length ≠ 1 then 1 else 0) = 0 := by
      omega
    have hc2 : (if ((ops.map SymmOp.invPure).filter
        (fun oi => ops.any (fun o => SymmOp.eqOp o oi))).length ≠ ops.length
        then 2 else 0) = 0 := by
      omega
    have hc3 : (((ops.map fun op1 => ops.map fun op2 => op1.mulPure op2).flatten.map
        (fun op12 => dictMem (ops.enum.map (fun x => (x.2, hashPure x.2, x.1)))
          op12 (hashPure op12))).filter (fun f => f = false)).length = 0 := by
      omega
    refine ⟨⟨?_, ?_⟩, ?_⟩
    · by_cases h : (ops.filter (fun op => op.isE)).length ≠ 1
      · rw [if_pos h] at hc1; cases hc1
      · simp at h
        exact beq_iff_eq.mpr h
    · by_cases h : ((ops.map SymmOp.invPure).filter
          (fun oi => ops.any (fun o => SymmOp.eqOp o oi))).length ≠ ops.length
      · rw [if_pos h] at hc2; cases hc2
      · simp only [ne_eq, not_not] at h
        rw [← List.length_map ops SymmOp.invPure] at h
        have hall := List.filter_length_eq_length.mp h
        rw [List.all_eq_true]
        intro op hop
        exact hall op.invPure (List.mem_map_of_mem SymmOp.invPure hop)
    · have hnil := List.length_eq_zero.mp hc3
      have hall := List.filter_eq_nil_iff.mp hnil
      rw [List.all_eq_true]
      intro o1 ho1
      rw [List.all_eq_true]
      intro o2 ho2
      have hmem : (o1.mulPure o2) ∈ (ops.map fun op1 =>
          ops.map fun op2 => op1.mulPure op2).flatten := by
        apply List.mem_flatten.2
        exact ⟨ops.map (fun op2 => o1.mulPure op2),
          List.mem_map_of_mem _ ho1, List.mem_map_of_mem _ ho2⟩
      have hfl := hall _ (List.mem_map_of_mem
        (fun op12 => dictMem (ops.enum.map (fun x => (x.2, hashPure x.2, x.1)))
          op12 (hashPure op12)) hmem)
      simp only [decide_eq_true_eq] at hfl
      have hb : dictMem (ops.enum.map (fun x => (x.2, hashPure x.2, x.1)))
          (o1.mulPure o2) (hashPure (o1.mulPure o2)) = true := by
        cases hbv : dictMem (ops.enum.map (fun x => (x.2, hashPure x.2, x.1)))
            (o1.mulPure o2) (hashPure (o1.mulPure o2))
        · exact absurd hbv hfl
        · rfl
      rw [dictMem_spec] at hb
      exact hb
  · rintro ⟨⟨h1, h2⟩, h3⟩
    have hc1 : (if (ops.filter (fun op => op.isE)).length ≠ 1 then 1 else 0) = 0 := by
      rw [if_neg]
      simp only [ne_eq, not_not]
      exact beq_iff_eq.mp h1
    have hc2 : (if ((ops.map SymmOp.invPure).filter
        (fun oi => ops.any (fun o => SymmOp.eqOp o oi))).length ≠ ops.length
        then 2 else 0) = 0 := by
      rw [if_neg]
      simp only [ne_eq, not_not]
      rw [← List.length_map ops SymmOp.invPure]
      apply List.filter_length_eq_length.mpr
      intro oi hoi
      obtain ⟨op, hop, rfl⟩ := List.mem_map.1 hoi
      exact (List.all_eq_true.mp h2) op hop
    have hc3 : (((ops.map fun op1 => ops.map fun op2 => op1.mulPure op2).flatten.map
        (fun op12 => dictMem (ops.enum.map (fun x => (x.2, hashPure x.2, x.1)))
          op12 (hashPure op12))).filter (fun f => f = false)).length = 0 := by
      apply List.length_eq_zero.mpr
      apply List.filter_eq_nil_iff.mpr
      intro f hf
      obtain ⟨op12, h12, rfl⟩ := List.mem_map.1 hf
      obtain ⟨o1, ho1, o2, ho2, heq⟩ := hflat op12 h12
      rw [← heq, dictMem_spec]
      have := (List.all_eq_true.mp ((List.all_eq_true.mp h3) o1 ho1)) o2 ho2
      rw [this]
      simp
    omega

/-- C4 witness: the one-element group `[E]` is accepted: `is_group` returns
    the Boolean of the three checks, which is `true` there. -/
theorem c4_witness :
    is_groupE [opE] = .ok (groupSpecB [opE]) ∧ groupSpecB [opE] = true :=
  ⟨c4_is_group_returns_bool [opE]
      (by intro op h; simp at h; rw [h]; with_unfolding_all decide)
      (by intro op h; simp at h; rw [h]; with_unfolding_all decide)
      (by simp)
    , by with_unfolding_all decide⟩

/-! C10: `SpaceGroup.__init__` length check and content validation. -/

theorem zip4_mem (f : Mat3 → Mat3) :
    ∀ (l1 : List Mat3) (l2 : List Vec3) (l3 : List ℤ),
    l1.length = l2.length → l1.length = l3.length →
    ∀ x ∈ (l1.zip l2).zip (l3.zip (l1.map f)),
      x.2.2 = f x.1.1 ∧ x.1.1 ∈ l1 ∧ x.2.1 ∈ l3 := by
  intro l1
  induction l1 with
  | nil => intro l2 l3 _ _ x hx; simp at hx
  | cons m t ih =>
    intro l2 l3 h12 h13 x hx
    cases l2 with
    | nil => simp at h12
    | cons v t2 =>
      cases l3 with
      | nil => simp at h13
      | cons s t3 =>
        simp only [List.map_cons, List.zip_cons_cons, List.mem_cons] at hx
        rcases hx with hx | hx
        · rw [hx]
          exact ⟨rfl, by simp, by simp⟩
        · have := ih t2 t3 (by simpa using h12) (by simpa using h13) x hx
          exact ⟨this.1, by simp [this.2.1], by simp [this.2.2]⟩

theorem zipped_mapM_ok (ts : ℤ) (hts : ts = -1 ∨ ts = 1)
    (l1 : List Mat3) (l2 : List Vec3) (l3 : List ℤ)
    (h12 : l1.length = l2.length) (h13 : l1.length = l3.length)
    (hdet : ∀ m ∈ l1, detRaw m ≠ 0) (hafm : ∀ s ∈ l3, s = -1 ∨ s = 1) :
    ((l1.zip l2).zip (l3.zip (l1.map (fun m => mati3invRaw m true)))).mapM
        (fun x => mkSymmOp x.1.1 x.1.2 ts x.2.1 (some x.2.2)) =
      .ok (((l1.zip l2).zip (l3.zip (l1.map (fun m => mati3invRaw m true)))).map
        (fun x => { rot_r := x.1.1, rotm1_r := mati3invRaw x.1.1 false,
                    tau := x.1.2, time_sign := ts, afm_sign := x.2.1,
                    rot_g := mati3invRaw x.1.1 true })) := by
  apply mapM_ok
  intro x hx
  obtain ⟨hcorr, hm, hs⟩ := zip4_mem _ l1 l2 l3 h12 h13 x hx
  rw [hcorr]
  exact mkSymmOp_ok_some x.1.2 (hdet _ hm) (hafm _ hs) hts

/-- C10 amended: with valid `spgid` and `inord`, a leading-length mismatch
    raises `ValueError` and no `SpaceGroup` is produced; with matching
    lengths, construction succeeds provided every rotation has nonzero
    determinant and every magnetic sign is +-1. -/
theorem c10_lengths_and_contents (spgid : ℕ) (symrel : List Mat3)
    (tnons : List Vec3) (symafm : List ℤ) (tr : Bool) (inord : String)
    (hid : spgid < 233) (hin : inord.toUpper = "C" ∨ inord.toUpper = "F") :
    (symrel.length ≠ tnons.length ∨ symrel.length ≠ symafm.length →
      mkSpaceGroup spgid symrel tnons symafm tr inord =
        .error "ValueError: symrel, tnons and symafm must have equal shape[0]") ∧
    (symrel.length = tnons.length → symrel.length = symafm.length →
      (∀ m ∈ symrel, detRaw m ≠ 0) → (∀ s ∈ symafm, s = -1 ∨ s = 1) →
      ∃ sg, mkSpaceGroup spgid symrel tnons symafm tr inord = .ok sg) := by
  unfold mkSpaceGroup
  rw [if_neg (by omega)]
  rw [if_neg (by rcases hin with h | h <;> rw [h] <;> simp)]
  constructor
  · intro hmis
    rw [if_pos hmis]
  · intro h12 h13 hdet hafm
    rw [if_neg (by omega)]
    have hlen' : (if inord.toUpper = "F" then symrel.map mat3T else symrel).length
        = symrel.length := by
      by_cases h : inord.toUpper = "F" <;> simp [h]
    have hdet' : ∀ m ∈ (if inord.toUpper = "F" then symrel.map mat3T else symrel),
        detRaw m ≠ 0 := by
      by_cases h : inord.toUpper = "F" <;> simp only [h, if_true, if_false]
      · intro m hm
        obtain ⟨m0, hm0, rfl⟩ := List.mem_map.1 hm
        rw [detRaw_transpose]
        exact hdet m0 hm0
      · exact hdet
    have hrec : (if inord.toUpper = "F" then symrel.map mat3T else symrel).mapM
        (fun m => mati3inv m true) =
        .ok ((if inord.toUpper = "F" then symrel.map mat3T else symrel).map
          (fun m => mati3invRaw m true)) :=
      mapM_ok _ (fun m hm => mati3inv_ok (hdet' m hm) true)
    have hsigns : ∀ ts ∈ (if tr then [(1:ℤ), -1] else [1]), ts = -1 ∨ ts = 1 := by
      cases tr <;> simp
    have hmain : (if tr then [(1:ℤ), -1] else [1]).mapM (fun ts =>
        (((if inord.toUpper = "F" then symrel.map mat3T else symrel).zip tnons).zip
          (symafm.zip ((if inord.toUpper = "F" then symrel.map mat3T else symrel).map
            (fun m => mati3invRaw m true)))).mapM
          (fun x => mkSymmOp x.1.1 x.1.2 ts x.2.1 (some x.2.2))) =
        .ok ((if tr then [(1:ℤ), -1] else [1]).map (fun ts =>
          (((if inord.toUpper = "F" then symrel.map mat3T else symrel).zip tnons).zip
            (symafm.zip ((if inord.toUpper = "F" then symrel.map mat3T else symrel).map
              (fun m => mati3invRaw m true)))).map
          (fun x => { rot_r := x.1.1, rotm1_r := mati3invRaw x.1.1 false,
                      tau := x.1.2, time_sign := ts, afm_sign := x.2.1,
                      rot_g := mati3invRaw x.1.1 true }))) :=
      mapM_ok _ (fun ts hts => zipped_mapM_ok ts (hsigns ts hts) _ tnons symafm
        (by rw [hlen']; exact h12) (by rw [hlen']; exact h13) hdet' hafm)
    simp only [hrec, okBind, hmain]
    exact ⟨_, rfl⟩

/-- C10 witness: a length mismatch errors; matching well-formed arrays build
    a `SpaceGroup`. -/
theorem c10_witness :
    mkSpaceGroup 1 [id3] [] [] false "C" =
      .error "ValueError: symrel, tnons and symafm must have equal shape[0]" ∧
    ∃ sg, mkSpaceGroup 1 [id3] [v0] [1] false "C" = .ok sg :=
  ⟨(c10_lengths_and_contents 1 [id3] [] [] false "C" (by omega)
      (by left; with_unfolding_all decide)).1 (by simp),
   (c10_lengths_and_contents 1 [id3] [v0] [1] false "C" (by omega)
      (by left; with_unfolding_all decide)).2 rfl rfl
      (by intro m hm; simp at hm; rw [hm]; decide)
      (by intro s hs; simp at hs; omega)⟩

/-! C7: `class_indices` really partitions the index set. The inner `kk` scan
is analysed first, then the `jj` conjugation loop, then the outer loop. -/

theorem scanMark_fst (conj : SymmOp) :
    ∀ (l : List (SymmOp × Bool)) (k0 : ℕ),
    (scanMark conj l k0).1.map Prod.fst = l.map Prod.fst := by
  intro l
  induction l with
  | nil => intro k0; rfl
  | cons p rest ih =>
    intro k0
    obtain ⟨op, fnd⟩ := p
    by_cases h : (!fnd && SymmOp.eqOp conj op) = true <;>
      simp [scanMark, h, ih (k0 + 1)]

theorem scanMark_getElem? (conj : SymmOp) :
    ∀ (l : List (SymmOp × Bool)) (k0 m : ℕ),
    (scanMark conj l k0).1[m]? =
      (l[m]?).map (fun p => (p.1, p.2 || SymmOp.eqOp conj p.1)) := by
  intro l
  induction l with
  | nil => intro k0 m; rfl
  | cons p rest ih =>
    intro k0 m
    obtain ⟨op, fnd⟩ := p
    cases m with
    | zero =>
      cases hf : fnd <;> cases he : SymmOp.eqOp conj op <;>
        simp [scanMark, hf, he]
    | succ m =>
      by_cases h : (!fnd && SymmOp.eqOp conj op) = true <;>
        simp [scanMark, h, ih (k0 + 1) m]

theorem scanMark_mem (conj : SymmOp) :
    ∀ (l : List (SymmOp × Bool)) (k0 k : ℕ),
    k ∈ (scanMark conj l k0).2 ↔
      ∃ m p, l[m]? = some p ∧ k = k0 + m ∧ p.2 = false ∧
        SymmOp.eqOp conj p.1 = true := by
  intro l
  induction l with
  | nil =>
    intro k0 k
    constructor
    · intro h; cases h
    · rintro ⟨m, p, hp, -⟩; cases hp
  | cons q rest ih =>
    intro k0 k
    obtain ⟨op, fnd⟩ := q
    by_cases h : (!fnd && SymmOp.eqOp conj op) = true
    · have h' := h
      rw [Bool.and_eq_true] at h'
      have hfnd : fnd = false := by
        cases hv : fnd
        · rfl
        · rw [hv] at h'; simp at h'
      have heq : SymmOp.eqOp conj op = true := h'.2
      constructor
      · intro hk
        simp only [scanMark, h, if_true, List.mem_cons] at hk
        rcases hk with hk | hk
        · exact ⟨0, (op, fnd), by simp, by omega, hfnd, heq⟩
        · obtain ⟨m, p, hp, hkm, hp2, hpe⟩ := (ih (k0 + 1) k).1 hk
          exact ⟨m + 1, p, by simpa using hp, by omega, hp2, hpe⟩
      · rintro ⟨m, p, hp, hkm, hp2, hpe⟩
        simp only [scanMark, h, if_true, List.mem_cons]
        cases m with
        | zero =>
          left; omega
        | succ m =>
          right
          exact (ih (k0 + 1) k).2 ⟨m, p, by simpa using hp, by omega, hp2, hpe⟩
    · constructor
      · intro hk
        simp only [scanMark, h, if_false] at hk
        obtain ⟨m, p, hp, hkm, hp2, hpe⟩ := (ih (k0 + 1) k).1 (by simpa using hk)
        exact ⟨m + 1, p, by simpa using hp, by omega, hp2, hpe⟩
      · rintro ⟨m, p, hp, hkm, hp2, hpe⟩
        simp only [scanMark, h, if_false]
        cases m with
        | zero =>
          exfalso
          have hpeq : (op, fnd) = p := by simpa using hp
          have hf : fnd = false := by rw [← hpeq] at hp2; exact hp2
          have he : SymmOp.eqOp conj op = true := by
            rw [← hpeq] at hpe; exact hpe
          subst hf
          simp [he] at h
        | succ m =>
          have := (ih (k0 + 1) k).2 ⟨m, p, by simpa using hp, by omega, hp2, hpe⟩
          simpa using this

theorem scanMark_lb (conj : SymmOp) :
    ∀ (l : List (SymmOp × Bool)) (k0 : ℕ), ∀ k ∈ (scanMark conj l k0).2, k0 ≤ k := by
  intro l k0 k hk
  obtain ⟨m, p, -, hkm, -, -⟩ := (scanMark_mem conj l k0 k).1 hk
  omega

theorem scanMark_nodup (conj : SymmOp) :
    ∀ (l : List (SymmOp × Bool)) (k0 : ℕ), (scanMark conj l k0).2.Nodup := by
  intro l
  induction l with
  | nil => intro k0; exact List.nodup_nil
  | cons q rest ih =>
    intro k0
    obtain ⟨op, fnd⟩ := q
    by_cases h : (!fnd && SymmOp.eqOp conj op) = true <;>
      simp only [scanMark, h, if_true, if_false]
    · refine List.nodup_cons.2 ⟨?_, ih (k0 + 1)⟩
      intro hmem
      have := scanMark_lb conj rest (k0 + 1) k0 hmem
      omega
    · exact ih (k0 + 1)

/-- Every operation conjugated by itself reproduces itself exactly, so the
    `kk` scan started for a fresh element always marks that element. -/
theorem conj_self_eq {op : SymmOp} (h : wfU op) :
    SymmOp.eqOp (SymmOp.conjPure op op) op = true := by
  have hArot : (SymmOp.mulPure op.invPure op).rot_r = id3 := (wfU.mul_rotm1 h).2
  have hAtau : (SymmOp.mulPure op.invPure op).tau = v0 := by
    show (-(mat3vec op.rotm1_r op.tau)) + mat3vec op.rotm1_r op.tau = v0
    funext i
    show (-(mat3vec op.rotm1_r op.tau)) i + mat3vec op.rotm1_r op.tau i = v0 i
    simp [v0]
  have hBrot : (SymmOp.conjPure op op).rot_r = op.rot_r := by
    show mat3mul (SymmOp.mulPure op.invPure op).rot_r op.rot_r = op.rot_r
    rw [hArot, mat3mul_id_left]
  have hBtau : (SymmOp.conjPure op op).tau = op.tau := by
    show (SymmOp.mulPure op.invPure op).tau +
        mat3vec (SymmOp.mulPure op.invPure op).rot_r op.tau = op.tau
    rw [hAtau, hArot, mat3vec_id]
    funext i
    show v0 i + op.tau i = op.tau i
    simp [v0]
  have hBts : (SymmOp.conjPure op op).time_sign = op.time_sign := by
    show op.time_sign * op.time_sign * op.time_sign = op.time_sign
    rcases h.1.2.2.2 with h' | h' <;> rw [h'] <;> ring
  have hBafm : (SymmOp.conjPure op op).afm_sign = op.afm_sign := by
    show op.afm_sign * op.afm_sign * op.afm_sign = op.afm_sign
    rcases h.1.2.2.1 with h' | h' <;> rw [h'] <;> ring
  refine (eqOp_true_iff _ _).mpr ⟨hBrot, ?_, hBafm, hBts⟩
  rw [hBtau]
  have hz : op.tau - op.tau = v0 := by
    funext i
    show op.tau i - op.tau i = v0 i
    simp [v0]
  rw [hz]
  exact is_integerB_v0

/-- One `kk` scan preserves the class invariant: the found flags and the
    collected index set stay in bijection. -/
theorem classInv_scan {ops : List SymmOp} {pairs : List (SymmOp × Bool)}
    {js : List ℕ} (conj : SymmOp) (hinv : classInv ops pairs js) :
    classInv ops (scanMark conj pairs 0).1 (js ++ (scanMark conj pairs 0).2) := by
  obtain ⟨hfst, hnd, hmem⟩ := hinv
  refine ⟨by rw [scanMark_fst conj pairs 0]; exact hfst, ?_, ?_⟩
  · rw [List.nodup_append]
    refine ⟨hnd, scanMark_nodup conj pairs 0, ?_⟩
    intro k hk hk2
    obtain ⟨m, p, hp, hkm, hp2, -⟩ := (scanMark_mem conj pairs 0 k).1 hk2
    obtain ⟨q, hq, hq2⟩ := (hmem k).1 hk
    have hkm' : k = m := by omega
    rw [hkm'] at hq
    rw [hp] at hq
    have : p = q := by injection hq
    rw [← this] at hq2
    rw [hp2] at hq2
    cases hq2
  · intro m
    rw [List.mem_append, hmem m, scanMark_mem conj pairs 0 m,
      scanMark_getElem? conj pairs 0 m]
    constructor
    · rintro (⟨p, hp, hp2⟩ | ⟨m', p, hp, hmm', hp2, hpe⟩)
      · exact ⟨(p.1, p.2 || SymmOp.eqOp conj p.1), by rw [hp]; rfl,
          by rw [hp2]; rfl⟩
      · have hm : m = m' := by omega
        rw [hm]
        exact ⟨(p.1, p.2 || SymmOp.eqOp conj p.1), by rw [hp]; rfl,
          by rw [hp2, hpe]; rfl⟩
    · rintro ⟨p', hp', hp'2⟩
      cases hpm : pairs[m]? with
      | none => rw [hpm] at hp'; cases hp'
      | some p =>
        rw [hpm] at hp'
        have hp'eq : p' = (p.1, p.2 || SymmOp.eqOp conj p.1) := by
          symm at hp'
          injection hp'
        rw [hp'eq] at hp'2
        have : p.2 = true ∨ (p.2 = false ∧ SymmOp.eqOp conj p.1 = true) := by
          cases hb : p.2
          · rw [hb] at hp'2
            simp at hp'2
            exact Or.inr ⟨rfl, hp'2⟩
          · exact Or.inl rfl
        rcases this with hb | ⟨hb, he⟩
        · exact Or.inl ⟨p, rfl, hb⟩
        · exact Or.inr ⟨m, p, hpm, by omega, hb, he⟩

theorem classInv_inner {ops : List SymmOp} (op1 : SymmOp) :
    ∀ (l : List SymmOp) (pairs : List (SymmOp × Bool)) (acc J : List ℕ),
    classInv ops pairs (J ++ acc) →
    classInv ops (innerPure op1 l pairs acc).1
      (J ++ (innerPure op1 l pairs acc).2) := by
  intro l
  induction l with
  | nil => intro pairs acc J h; exact h
  | cons op2 rest ih =>
    intro pairs acc J h
    show classInv ops (innerPure op1 rest (scanMark (SymmOp.conjPure op1 op2) pairs 0).1
      (acc ++ (scanMark (SymmOp.conjPure op1 op2) pairs 0).2)).1 _
    apply ih
    rw [← List.append_assoc]
    exact classInv_scan (SymmOp.conjPure op1 op2) h

theorem innerPure_mono (op1 : SymmOp) :
    ∀ (l : List SymmOp) (pairs : List (SymmOp × Bool)) (acc : List ℕ)
      (m : ℕ) (p : SymmOp × Bool), pairs[m]? = some p → p.2 = true →
    ∃ q, (innerPure op1 l pairs acc).1[m]? = some q ∧ q.1 = p.1 ∧ q.2 = true := by
  intro l
  induction l with
  | nil => intro pairs acc m p hp hp2; exact ⟨p, hp, rfl, hp2⟩
  | cons op2 rest ih =>
    intro pairs acc m p hp hp2
    have hp' : (scanMark (SymmOp.conjPure op1 op2) pairs 0).1[m]? =
        some (p.1, p.2 || SymmOp.eqOp (SymmOp.conjPure op1 op2) p.1) := by
      rw [scanMark_getElem?, hp]
      rfl
    obtain ⟨q, hq, hq1, hq2⟩ := ih _ (acc ++ (scanMark (SymmOp.conjPure op1 op2)
      pairs 0).2) m _ hp' (by rw [hp2]; rfl)
    exact ⟨q, hq, hq1, hq2⟩

theorem innerPure_hit (op1 : SymmOp)
    (hself : SymmOp.eqOp (SymmOp.conjPure op1 op1) op1 = true) :
    ∀ (l : List SymmOp) (pairs : List (SymmOp × Bool)) (acc : List ℕ)
      (ii : ℕ) (b : Bool), op1 ∈ l → pairs[ii]? = some (op1, b) →
    ∃ q, (innerPure op1 l pairs acc).1[ii]? = some q ∧ q.2 = true := by
  intro l
  induction l with
  | nil => intro pairs acc ii b hmem; cases hmem
  | cons op2 rest ih =>
    intro pairs acc ii b hmem hp
    have hp1 : (scanMark (SymmOp.conjPure op1 op2) pairs 0).1[ii]? =
        some (op1, b || SymmOp.eqOp (SymmOp.conjPure op1 op2) op1) := by
      rw [scanMark_getElem?, hp]
      rfl
    rcases List.mem_cons.1 hmem with hmem | hmem
    · rw [← hmem] at hp1
      rw [← hmem]
      rw [hself] at hp1
      obtain ⟨q, hq, -, hq2⟩ := innerPure_mono op1 rest _ _ ii _ hp1 (by simp)
      exact ⟨q, hq, hq2⟩
    · exact ih _ _ ii _ hmem hp1

theorem classPure_main {ops : List SymmOp} (hwfU : ∀ op ∈ ops, wfU op) :
    ∀ (todo : List ℕ) (pairs : List (SymmOp × Bool)) (classes : List (List ℕ)),
    classInv ops pairs classes.flatten →
    classInv ops (classPure ops todo pairs classes).1
        ((classPure ops todo pairs classes).2).flatten ∧
    (∃ rest2, (classPure ops todo pairs classes).2 = classes ++ rest2) ∧
    (∀ jj ∈ todo, jj < ops.length →
      ∃ p, (classPure ops todo pairs classes).1[jj]? = some p ∧ p.2 = true) := by
  intro todo
  induction todo with
  | nil =>
    intro pairs classes hinv
    refine ⟨hinv, ⟨[], by rw [List.append_nil]; rfl⟩, ?_⟩
    intro jj h
    cases h
  | cons ii rest ih =>
    intro pairs classes hinv
    have hplen : pairs.length = ops.length := by
      rw [← hinv.1, List.length_map]
    by_cases hflag : (pairs.getD ii (default, true)).2 = true
    · have hres : classPure ops (ii :: rest) pairs classes =
          classPure ops rest pairs classes := by
        simp only [classPure]
        rw [if_pos hflag]
      rw [hres]
      obtain ⟨hinv2, hgrow, hcompl⟩ := ih pairs classes hinv
      refine ⟨hinv2, hgrow, ?_⟩
      intro jj hjj hjlt
      rcases List.mem_cons.1 hjj with hjj | hjj
      · subst hjj
        have hlt : jj < pairs.length := by omega
        cases hpq : pairs[jj]? with
        | none =>
          rw [List.getElem?_eq_none_iff] at hpq
          omega
        | some p =>
          have hp2 : p.2 = true := by
            have h4 : pairs.getD jj (default, true) = p := by
              rw [List.getD_eq_getElem?_getD, hpq]
              rfl
            rw [← h4]
            exact hflag
          have hmemJ : jj ∈ classes.flatten := (hinv.2.2 jj).2 ⟨p, hpq, hp2⟩
          obtain ⟨rest2, hrest2⟩ := hgrow
          have hmemJ2 : jj ∈ ((classPure ops rest pairs classes).2).flatten := by
            rw [hrest2, List.flatten_append]
            exact List.mem_append_left _ hmemJ
          exact (hinv2.2.2 jj).1 hmemJ2
      · exact hcompl jj hjj hjlt
    · have hlt : ii < pairs.length := by
        by_contra hge
        apply hflag
        rw [List.getD_eq_getElem?_getD, List.getElem?_eq_none (by omega)]
        rfl
      cases hpq : pairs[ii]? with
      | none =>
        rw [List.getElem?_eq_none_iff] at hpq
        omega
      | some p =>
        have hom : ops[ii]? = some p.1 := by
          rw [← hinv.1, List.getElem?_map, hpq]
          rfl
        have hop1 : ops.getD ii default = p.1 := by
          rw [List.getD_eq_getElem?_getD, hom]
          rfl
        have hp1mem : p.1 ∈ ops := List.getElem?_mem hom
        have hres : classPure ops (ii :: rest) pairs classes =
            classPure ops rest (innerPure (ops.getD ii default) ops pairs []).1
              (classes ++ [(innerPure (ops.getD ii default) ops pairs []).2]) := by
          simp only [classPure]
          rw [if_neg hflag]
        have hinv1 : classInv ops (innerPure (ops.getD ii default) ops pairs []).1
            ((classes ++ [(innerPure (ops.getD ii default) ops pairs []).2]).flatten) := by
          have hstep := classInv_inner (ops.getD ii default) ops pairs []
            classes.flatten (by rw [List.append_nil]; exact hinv)
          have hfl : (classes ++
              [(innerPure (ops.getD ii default) ops pairs []).2]).flatten
              = classes.flatten ++ (innerPure (ops.getD ii default) ops pairs []).2 := by
            rw [List.flatten_append]
            simp
          rw [hfl]
          exact hstep
        rw [hres]
        obtain ⟨hinv2, hgrow, hcompl⟩ := ih _ _ hinv1
        refine ⟨hinv2, ?_, ?_⟩
        · obtain ⟨rest2, hrest2⟩ := hgrow
          exact ⟨[(innerPure (ops.getD ii default) ops pairs []).2] ++ rest2,
            by rw [hrest2, List.append_assoc]⟩
        · intro jj hjj hjlt
          rcases List.mem_cons.1 hjj with hjj | hjj
          · subst hjj
            have hself := conj_self_eq (hwfU p.1 hp1mem)
            obtain ⟨q, hq, hq2⟩ :=
              innerPure_hit p.1 hself ops pairs [] jj p.2 hp1mem hpq
            have hq1 : (innerPure (ops.getD jj default) ops pairs []).1[jj]? =
                some q := by
              rw [hop1]
              exact hq
            have hmemJ : jj ∈ ((classes ++
                [(innerPure (ops.getD jj default) ops pairs []).2]).flatten) :=
              (hinv1.2.2 jj).2 ⟨q, hq1, hq2⟩
            obtain ⟨rest2, hrest2⟩ := hgrow
            have hmemJ2 : jj ∈ ((classPure ops rest
                (innerPure (ops.getD jj default) ops pairs []).1
                (classes ++ [(innerPure (ops.getD jj default) ops pairs []).2])).2).flatten := by
              rw [hrest2, List.flatten_append]
              exact List.mem_append_left _ hmemJ
            exact (hinv2.2.2 jj).1 hmemJ2
          · exact hcompl jj hjj hjlt

theorem wfU_default : wfU (default : SymmOp) := by
  constructor
  · refine ⟨?_, ?_, by right; rfl, by right; rfl⟩ <;> with_unfolding_all decide
  · with_unfolding_all decide

theorem getD_wfU {ops : List SymmOp} (h : ∀ op ∈ ops, wfU op) (ii : ℕ) :
    wfU (ops.getD ii default) := by
  by_cases hlt : ii < ops.length
  · cases hoq : ops[ii]? with
    | none =>
      rw [List.getElem?_eq_none_iff] at hoq
      omega
    | some op =>
      have : ops.getD ii default = op := by
        rw [List.getD_eq_getElem?_getD, hoq]
        rfl
      rw [this]
      exact h op (List.getElem?_mem hoq)
  · have : ops.getD ii default = default := by
      rw [List.getD_eq_getElem?_getD, List.getElem?_eq_none (by omega)]
      rfl
    rw [this]
    exact wfU_default

theorem innerConj_ok (op1 : SymmOp) (h1 : wfU op1) :
    ∀ (l : List SymmOp), (∀ op2 ∈ l, wfU op2) →
    ∀ (pairs : List (SymmOp × Bool)) (acc : List ℕ),
    innerConj op1 l pairs acc = .ok (innerPure op1 l pairs acc) := by
  intro l
  induction l with
  | nil => intro _ pairs acc; rfl
  | cons op2 rest ih =>
    intro hl pairs acc
    show (SymmOp.opconjE op1 op2 >>= _) = _
    rw [opconjE_ok h1 (hl op2 (by simp)), okBind]
    exact ih (fun x hx => hl x (by simp [hx])) _ _

theorem classLoop_ok {ops : List SymmOp} (h : ∀ op ∈ ops, wfU op) :
    ∀ (todo : List ℕ) (pairs : List (SymmOp × Bool)) (classes : List (List ℕ)),
    classLoop ops todo pairs classes = .ok (classPure ops todo pairs classes) := by
  intro todo
  induction todo with
  | nil => intro pairs classes; rfl
  | cons ii rest ih =>
    intro pairs classes
    by_cases hflag : (pairs.getD ii (default, true)).2 = true
    · show (if (pairs.getD ii (default, true)).2 then _ else _) = _
      rw [if_pos hflag]
      have : classPure ops (ii :: rest) pairs classes =
          classPure ops rest pairs classes := by
        simp only [classPure]
        rw [if_pos hflag]
      rw [this]
      exact ih _ _
    · show (if (pairs.getD ii (default, true)).2 then _ else _) = _
      rw [if_neg hflag]
      have hstep : classPure ops (ii :: rest) pairs classes =
          classPure ops rest (innerPure (ops.getD ii default) ops pairs []).1
            (classes ++ [(innerPure (ops.getD ii default) ops pairs []).2]) := by
        simp only [classPure]
        rw [if_neg hflag]
      rw [hstep]
      show (innerConj (ops.getD ii default) ops pairs [] >>= _) = _
      rw [innerConj_ok (ops.getD ii default) (getD_wfU h ii) ops h pairs [], okBind]
      exact ih _ _

theorem mem_enum_of_mem {ops : List SymmOp} {op : SymmOp} (h : op ∈ ops) :
    ∃ i, (i, op) ∈ ops.enum := by
  have h2 : op ∈ ops.enum.map Prod.snd := by
    rw [enum_map_snd]
    exact h
  obtain ⟨x, hx, hxe⟩ := List.mem_map.1 h2
  refine ⟨x.1, ?_⟩
  have : (x.1, op) = x := by
    rw [← hxe]
  rw [this]
  exact hx

/-- An `is_group` call that returns at all has hashed every operation, so
    every determinant is +1 or -1. -/
theorem is_group_ok_unimodular {ops : List SymmOp} {b : Bool}
    (hg : is_groupE ops = .ok b) : ∀ op ∈ ops, unimodular op.rot_r := by
  unfold is_groupE at hg
  obtain ⟨invs, -, hg2⟩ := exceptBind_ok hg
  obtain ⟨prows, -, hg3⟩ := exceptBind_ok hg2
  obtain ⟨d, hd, -⟩ := exceptBind_ok hg3
  unfold asdictE at hd
  obtain ⟨d0, hd0, -⟩ := exceptBind_ok hd
  intro op hop
  obtain ⟨i, hi⟩ := mem_enum_of_mem hop
  obtain ⟨h, hh⟩ := asdictRun_hash_ok hd0 (i, op) hi
  unfold SymmOp.hashE at hh
  obtain ⟨dv, hdv, -⟩ := exceptBind_ok hh
  unfold getDetE at hdv
  by_cases hna : (detRaw op.rot_r).natAbs ≠ 1
  · rw [if_pos hna] at hdv
    cases hdv
  · simp only [ne_eq, not_not] at hna
    unfold unimodular
    omega

/-- C7: on every operation set accepted by `is_group()` (all operations
    carrying the constructor invariant), `class_indices` returns a partition:
    the class index lists are pairwise disjoint, they cover each of
    `0..n-1` exactly once, and their lengths sum to `n`. -/
theorem c7_class_indices_partition (ops : List SymmOp)
    (hwf : ∀ op ∈ ops, op.WF) (hg : is_groupE ops = .ok true) :
    ∃ cls, class_indicesE ops = .ok cls ∧
      cls.flatten.Perm (List.range ops.length) ∧
      List.Pairwise (fun c1 c2 => ∀ m ∈ c1, m ∉ c2) cls ∧
      (cls.map List.length).sum = ops.length := by
  have hu := is_group_ok_unimodular hg
  have hwfU : ∀ op ∈ ops, wfU op := fun op h => ⟨hwf op h, hu op h⟩
  have hinv0 : classInv ops (ops.map (fun op => (op, false))) ([] : List (List ℕ)).flatten := by
    refine ⟨?_, ?_, ?_⟩
    · rw [List.map_map]
      exact List.map_id ops
    · exact List.nodup_nil
    · intro m
      constructor
      · intro hmem
        cases hmem
      · rintro ⟨p, hp, hp2⟩
        rw [List.getElem?_map] at hp
        cases hoq : ops[m]? with
        | none =>
          rw [hoq] at hp
          cases hp
        | some op =>
          rw [hoq] at hp
          have : (op, false) = p := by injection hp
          rw [← this] at hp2
          cases hp2
  obtain ⟨hinvF, -, hcomplF⟩ := classPure_main hwfU (List.range ops.length)
    (ops.map (fun op => (op, false))) [] hinv0
  have hPlen : (classPure ops (List.range ops.length)
      (ops.map (fun op => (op, false))) []).1.length = ops.length := by
    have h5 := congrArg List.length hinvF.1
    rw [List.length_map] at h5
    exact h5
  have hmemiff : ∀ m, m ∈ ((classPure ops (List.range ops.length)
      (ops.map (fun op => (op, false))) []).2).flatten ↔ m ∈ List.range ops.length := by
    intro m
    constructor
    · intro hm
      obtain ⟨p, hp, -⟩ := (hinvF.2.2 m).1 hm
      have : m < ops.length := by
        rcases List.getElem?_eq_some_iff.1 hp with ⟨hlt, -⟩
        omega
      exact List.mem_range.2 this
    · intro hm
      obtain ⟨p, hp, hp2⟩ := hcomplF m hm (List.mem_range.1 hm)
      exact (hinvF.2.2 m).2 ⟨p, hp, hp2⟩
  have hperm : ((classPure ops (List.range ops.length)
      (ops.map (fun op => (op, false))) []).2).flatten.Perm
      (List.range ops.length) :=
    (List.perm_ext_iff_of_nodup hinvF.2.1 (List.nodup_range ops.length)).2 hmemiff
  have hsum : (((classPure ops (List.range ops.length)
      (ops.map (fun op => (op, false))) []).2).map List.length).sum = ops.length := by
    rw [← List.length_flatten, hperm.length_eq, List.length_range]
  refine ⟨(classPure ops (List.range ops.length)
      (ops.map (fun op => (op, false))) []).2, ?_, hperm, ?_, hsum⟩
  · unfold class_indicesE
    rw [classLoop_ok hwfU (List.range ops.length)
      (ops.map (fun op => (op, false))) [], okBind]
    rw [if_pos hsum]
    rfl
  · have hdisj := (List.nodup_flatten.1 hinvF.2.1).2
    exact hdisj.imp (fun hne => fun m hm1 hm2 => hne hm1 hm2)

/-- C7 witness: the two-element group `{E, inversion}` splits into the two
    singleton classes `[[0], [1]]`. -/
theorem c7_witness :
    ∃ cls, class_indicesE [opE, opInv] = .ok cls ∧
      cls.flatten.Perm (List.range 2) ∧
      List.Pairwise (fun c1 c2 => ∀ m ∈ c1, m ∉ c2) cls ∧
      (cls.map List.length).sum = 2 :=
  c7_class_indices_partition [opE, opInv]
    (by
      intro op h
      rcases List.mem_cons.1 h with h | h
      · rw [h]; with_unfolding_all decide
      · simp at h; rw [h]; with_unfolding_all decide)
    (by with_unfolding_all decide)

end Abipy
